import Mathlib

/-!
Verification of the play-learn-spark mobile-app rewrite scripts.

The repository consists of three Python batch text rewriters:
fix_activities.py (the v1 transform), fix_activities_v2.py (the v2
transform) and fix_extra_braces.py (the repair pass).  Each reads a
Dart source file as one string and rewrites it.  This development gives
a shallow embedding of the three per-file content transforms over
List Char and proves or refutes the specification claims about them.

Embedding notes:
- Python str.split with separator endline is splitNl, str.join is joinNl.
- Python str.replace(old, new) is replaceAll (leftmost, non-overlapping,
  the replacement text is not rescanned).
- The two re.sub patterns both start with a greedy whitespace group
  followed by a literal that begins with a non-whitespace character, so
  a match at a position exists exactly when the position starts a
  whitespace character and the literal follows the maximal whitespace
  run; backtracking into the run can never succeed.  subAF and subBF
  implement exactly that.  The revert pattern of v2 similarly has a
  greedy whitespace gap between two literals, implemented by subCF.
- The Python whitespace class is modelled by the six ASCII whitespace
  characters, which covers every buffer considered here.
-/

set_option maxRecDepth 100000
set_option maxHeartbeats 4000000

/-- ASCII model of the Python whitespace class used by lstrip, strip
and the regex whitespace escape. -/
def isPySpace (c : Char) : Bool :=
  c == ' ' || c == '\t' || c == '\n' || c == '\r' || c == '\x0b' || c == '\x0c'

/-- Number of occurrences of a character in a line, as in str.count. -/
def countCh (c : Char) : List Char → Nat
  | [] => 0
  | d :: rest => (if d = c then 1 else 0) + countCh c rest

/-- Membership test for a character, as in the Python in operator. -/
def hasCh (c : Char) : List Char → Bool
  | [] => false
  | d :: rest => if d = c then true else hasCh c rest

/-- Boolean list-prefix test. -/
def pfx : List Char → List Char → Bool
  | [], _ => true
  | _ :: _, [] => false
  | a :: as, b :: bs => if a = b then pfx as bs else false

/-- Boolean substring test: does sub occur contiguously in s. -/
def containsStr (sub : List Char) : List Char → Bool
  | [] => sub.isEmpty
  | c :: rest => pfx sub (c :: rest) || containsStr sub rest

/-- Python str.strip restricted to the ASCII whitespace class. -/
def pyStrip (l : List Char) : List Char :=
  ((l.dropWhile isPySpace).reverse.dropWhile isPySpace).reverse

/-- Leading-whitespace count: len(line) minus len(line.lstrip()). -/
def indentOf (l : List Char) : Nat :=
  (l.takeWhile isPySpace).length

/-- Per-line brace delta: count of open braces minus count of close
braces, as accumulated by both wrap loops. -/
def braceDelta (l : List Char) : Int :=
  (countCh '\x7b' l : Int) - (countCh '\x7d' l : Int)

/-- The at-override marker line content. -/
def ovr : List Char := ("@override").toList

/-- The renamed signature text searched for by both wrap loops. -/
def sigNew : List Char := ("void generateNewQuestion()").toList

/-- The renamed signature line tail produced by both regex rewrites. -/
def sigNewBrace : List Char := ("void generateNewQuestion() \x7b").toList

/-- The old signature literal of the v2 regex (no trailing newline). -/
def sigTail2 : List Char := ("void _generateQuestion() \x7b").toList

/-- The old signature literal of the v1 regex (with trailing newline). -/
def sigTail1 : List Char := ("void _generateQuestion() \x7b\n").toList

/-- The setState opener text searched for by the v2 state check. -/
def setStateOpen : List Char := ("setState(() \x7b").toList

/-- The indented setState opener inserted by the v1 regex template. -/
def indentedSetOpen : List Char := ("  setState(() \x7b").toList

/-- The commented setState closer: inserted by the v1 wrap loop and the
first literal of the v2 revert pattern. -/
def closeComment : List Char := ("\x7d); // setState").toList

/-- The bare wrapper closer. -/
def closeBr : List Char := ("\x7d);").toList

/-- The old call-site text. -/
def oldCall : List Char := ("_generateQuestion();").toList

/-- The new call-site text. -/
def newCall : List Char := ("generateNewQuestion();").toList

/-- The old method name. -/
def gqName : List Char := ("_generateQuestion").toList

/-- First corruption literal of fix_extra_braces.py: commented closer,
newline, four spaces, bare closer. -/
def corrupt4 : List Char := ("\x7d); // setState\n    \x7d);").toList

/-- Second corruption literal of fix_extra_braces.py: commented closer,
newline, two spaces, bare closer. -/
def corrupt2 : List Char := ("\x7d); // setState\n  \x7d);").toList

/-- Python str.split on the newline character. -/
def splitNl : List Char → List (List Char)
  | [] => [[]]
  | c :: rest =>
    if c = '\n' then [] :: splitNl rest
    else (c :: (splitNl rest).headD []) :: (splitNl rest).tail

/-- Python newline str.join. -/
def joinNl : List (List Char) → List Char
  | [] => []
  | [l] => l
  | l :: ls => l ++ '\n' :: joinNl ls

/-- Python str.replace with explicit fuel; each step consumes at least
one character of the remaining input when old is nonempty, so fuel equal
to the input length is always enough. -/
def replaceAllFuel (old new : List Char) : Nat → List Char → List Char
  | 0, s => s
  | _ + 1, [] => []
  | f + 1, c :: rest =>
    if pfx old (c :: rest) then
      new ++ replaceAllFuel old new f ((c :: rest).drop old.length)
    else
      c :: replaceAllFuel old new f rest

/-- Python str.replace(old, new). -/
def replaceAll (old new s : List Char) : List Char :=
  replaceAllFuel old new s.length s

/-- Replacement template of the v1 signature regex, instantiated at the
captured whitespace group. -/
def replTemplateV1 (run : List Char) : List Char :=
  run ++ ovr ++ '\n' :: (run ++ sigNewBrace ++ '\n' :: (run ++ indentedSetOpen ++ ['\n']))

/-- Replacement template of the v2 signature regex, instantiated at the
captured whitespace group. -/
def replTemplateV2 (run : List Char) : List Char :=
  run ++ ovr ++ '\n' :: (run ++ sigNewBrace)

/-- The v1 signature re.sub: whitespace group, old signature literal
with newline, replaced by the v1 template. -/
def subAF : Nat → List Char → List Char
  | 0, s => s
  | _ + 1, [] => []
  | f + 1, c :: rest =>
    if isPySpace c then
      let run := (c :: rest).takeWhile isPySpace
      let after := (c :: rest).dropWhile isPySpace
      if pfx sigTail1 after then
        replTemplateV1 run ++ subAF f (after.drop sigTail1.length)
      else
        c :: subAF f rest
    else
      c :: subAF f rest

/-- The v1 signature rewrite over a whole buffer. -/
def subA (s : List Char) : List Char := subAF s.length s

/-- The v2 signature re.sub: same pattern without the trailing newline,
replaced by the v2 template. -/
def subBF : Nat → List Char → List Char
  | 0, s => s
  | _ + 1, [] => []
  | f + 1, c :: rest =>
    if isPySpace c then
      let run := (c :: rest).takeWhile isPySpace
      let after := (c :: rest).dropWhile isPySpace
      if pfx sigTail2 after then
        replTemplateV2 run ++ subBF f (after.drop sigTail2.length)
      else
        c :: subBF f rest
    else
      c :: subBF f rest

/-- The v2 signature rewrite over a whole buffer. -/
def subB (s : List Char) : List Char := subBF s.length s

/-- The v2 revert re.sub: commented closer, greedy whitespace gap, bare
closer, replaced by the bare closer. -/
def subCF : Nat → List Char → List Char
  | 0, s => s
  | _ + 1, [] => []
  | f + 1, c :: rest =>
    if pfx closeComment (c :: rest) then
      let after := (c :: rest).drop closeComment.length
      let t2 := after.dropWhile isPySpace
      if pfx closeBr t2 then
        closeBr ++ subCF f (t2.drop closeBr.length)
      else
        c :: subCF f rest
    else
      c :: subCF f rest

/-- The v2 revert rewrite over a whole buffer. -/
def subC (s : List Char) : List Char := subCF s.length s

/-- The v1 wrap loop over the line list.  State: the in-method flag, the
running brace count (never reset between methods, exactly as in the
script) and the recorded method indentation.  Returns the rewritten
lines together with the final flag, which remains true when a method
body never triggered the close condition. -/
def fixLoopV1 : List (List Char) → Bool → Int → Nat → (List (List Char) × Bool)
  | [], ing, _, _ => ([], ing)
  | l :: ls, ing, bc, ind =>
    if containsStr sigNew l then
      let p := fixLoopV1 ls true bc (indentOf l)
      (l :: p.1, p.2)
    else if ing then
      let bc2 := bc + braceDelta l
      if bc2 == 0 && hasCh '\x7d' l then
        let p := fixLoopV1 ls false bc2 ind
        ((List.replicate (ind + 2) ' ' ++ closeComment) :: l :: p.1, p.2)
      else
        let p := fixLoopV1 ls true bc2 ind
        (l :: p.1, p.2)
    else
      let p := fixLoopV1 ls false bc ind
      (l :: p.1, p.2)

/-- The whole per-file content transform of fix_activities.py:
signature regex, wrap loop, call-site replace. -/
def transformV1 (s : List Char) : List Char :=
  replaceAll oldCall newCall (joinNl (fixLoopV1 (splitNl (subA s)) false 0 0).1)

/-- The copy-as-is branch of the v2 loop: copy lines up to and
including the first line that strips to a single close brace, and
return the remaining lines. -/
def copyTilClose : List (List Char) → (List (List Char) × List (List Char))
  | [] => ([], [])
  | l :: ls =>
    if pyStrip l = ['\x7d'] then ([l], ls)
    else
      let p := copyTilClose ls
      (l :: p.1, p.2)

/-- The indentation adjustment the v2 body copy applies to a non-final
line: a non-blank line gains two spaces, a blank line is kept. -/
def indentFn (l : List Char) : List Char :=
  if (pyStrip l).isEmpty then l else ' ' :: ' ' :: l

/-- The body-copy loop of the v2 wrap branch.  The loop guard checks
the running count before each line; a line that brings the count to
exactly zero receives the wrapper closer before it; every other line is
copied through indentFn. -/
def wrapTail (setInd : List Char) (bc : Int) : List (List Char) → (List (List Char) × List (List Char))
  | [] => ([], [])
  | l :: ls =>
    if bc ≤ 0 then ([], l :: ls)
    else
      let bc2 := bc + braceDelta l
      if bc2 = 0 then ([setInd ++ closeBr, l], ls)
      else
        let p := wrapTail setInd bc2 ls
        (indentFn l :: p.1, p.2)

/-- Head check of the v2 state classification: does the first remaining
line already contain the setState opener. -/
def setHead : List (List Char) → Bool
  | [] => false
  | l3 :: _ => containsStr setStateOpen l3

/-- The v2 while loop over the line list, with fuel; each iteration
consumes at least one input line, so fuel equal to the number of lines
is always enough. -/
def v2Go : Nat → List (List Char) → List (List Char)
  | 0, ls => ls
  | _ + 1, [] => []
  | _ + 1, [l] => [l]
  | f + 1, l :: l2 :: ls2 =>
    if containsStr ovr l && containsStr sigNew l2 then
      if setHead ls2 then
        let p := copyTilClose ls2
        l :: l2 :: (p.1 ++ v2Go f p.2)
      else
        let setInd := List.replicate (indentOf l2 + 2) ' '
        let p := wrapTail setInd 1 ls2
        l :: l2 :: (setInd ++ setStateOpen) :: (p.1 ++ v2Go f p.2)
    else
      l :: v2Go f (l2 :: ls2)

/-- The whole per-file content transform of fix_activities_v2.py:
revert regex, signature regex, wrap loop, call-site replace. -/
def transformV2 (s : List Char) : List Char :=
  replaceAll oldCall newCall
    (joinNl (v2Go (splitNl (subB (subC s))).length (splitNl (subB (subC s)))))

/-- The whole per-file content transform of fix_extra_braces.py: the
two corruption literals replaced by the bare closer, in order. -/
def repairExtra (s : List Char) : List Char :=
  replaceAll corrupt2 closeBr (replaceAll corrupt4 closeBr s)

/-- Observable per-file outcome of one loop iteration of each script. -/
inductive FileEvent where
  | skippedMissing (n : String)
  | wrote (n : String) (content : List Char)
deriving DecidableEq

/-- One file iteration of fix_activities.py: a missing file is skipped,
an existing file is rewritten and then written back unconditionally. -/
def v1Step (fs : String → Option (List Char)) (n : String) : FileEvent :=
  match fs n with
  | none => FileEvent.skippedMissing n
  | some c => FileEvent.wrote n (transformV1 c)

/-- One file iteration of fix_extra_braces.py: a missing file is
skipped, an existing file is rewritten and written back
unconditionally. -/
def repairStep (fs : String → Option (List Char)) (n : String) : FileEvent :=
  match fs n with
  | none => FileEvent.skippedMissing n
  | some c => FileEvent.wrote n (repairExtra c)

/-- Scanner contract taken from the specification wording: accumulate
the per-line brace delta onto the entering depth and return the first
index at which the depth reaches exactly zero. -/
def specLocateBlockEnd (d : Int) : List (List Char) → Option Nat
  | [] => none
  | l :: ls =>
    if d + braceDelta l = 0 then some 0
    else (specLocateBlockEnd (d + braceDelta l) ls).map Nat.succ

/-- Depth after consuming the first n lines, starting from d. -/
def depthAt (d : Int) (lines : List (List Char)) (n : Nat) : Int :=
  d + ((lines.take n).map braceDelta).sum

/-- Condition under which the v1 wrap loop, already inside a method,
never fires its close condition nor re-enters a signature line. -/
def v1NeverCloses (bc : Int) : List (List Char) → Bool
  | [] => true
  | l :: ls =>
    if containsStr sigNew l then false
    else if (bc + braceDelta l) == 0 && hasCh '\x7d' l then false
    else v1NeverCloses (bc + braceDelta l) ls

/-- The double-wrap corruption adjacency at an arbitrary indentation of
the redundant closing line. -/
def corruptAt (n : Nat) : List Char :=
  closeComment ++ '\n' :: (List.replicate n ' ' ++ closeBr)

/-! ## Basic lemmas about the character-level scanning primitives -/

theorem pfx_nil (s : List Char) : pfx [] s = true := rfl

theorem pfx_append_ext : ∀ (p a b : List Char), pfx p a = true → pfx p (a ++ b) = true := by
  intro p
  induction p with
  | nil => intro a b _; rfl
  | cons c p ih =>
    intro a b h
    cases a with
    | nil => simp [pfx] at h
    | cons d a2 =>
      simp only [List.cons_append, pfx] at h ⊢
      split at h
      · next hcd => rw [if_pos hcd]; exact ih a2 b h
      · exact absurd h (by simp)

theorem pfx_iff_exists : ∀ (p s : List Char), pfx p s = true ↔ ∃ t, p ++ t = s := by
  intro p
  induction p with
  | nil => intro s; simp [pfx]
  | cons c p ih =>
    intro s
    cases s with
    | nil =>
      simp only [pfx]
      constructor
      · intro h; exact absurd h (by simp)
      · rintro ⟨t, ht⟩; exact absurd ht (by simp)
    | cons d s2 =>
      simp only [pfx]
      constructor
      · intro h
        split at h
        · next hcd =>
          obtain ⟨t, ht⟩ := (ih s2).mp h
          exact ⟨t, by rw [List.cons_append, hcd, ht]⟩
        · exact absurd h (by simp)
      · rintro ⟨t, ht⟩
        rw [List.cons_append] at ht
        injection ht with h1 h2
        rw [if_pos h1]
        exact (ih s2).mpr ⟨t, h2⟩

theorem containsStr_iff_exists : ∀ (sub s : List Char),
    containsStr sub s = true ↔ ∃ x y, x ++ sub ++ y = s := by
  intro sub s
  induction s with
  | nil =>
    simp only [containsStr, List.isEmpty_iff]
    constructor
    · intro h; exact ⟨[], [], by simp [h]⟩
    · rintro ⟨x, y, hxy⟩
      rcases List.append_eq_nil.mp hxy with ⟨hxs, hy⟩
      rcases List.append_eq_nil.mp hxs with ⟨-, hs⟩
      exact hs
  | cons c rest ih =>
    simp only [containsStr, Bool.or_eq_true]
    constructor
    · rintro (h | h)
      · obtain ⟨t, ht⟩ := (pfx_iff_exists sub (c :: rest)).mp h
        exact ⟨[], t, by simpa using ht⟩
      · obtain ⟨x, y, hxy⟩ := ih.mp h
        exact ⟨c :: x, y, by simp [hxy]⟩
    · rintro ⟨x, y, hxy⟩
      cases x with
      | nil =>
        left
        exact (pfx_iff_exists sub (c :: rest)).mpr ⟨y, by simpa using hxy⟩
      | cons x0 x2 =>
        right
        apply ih.mpr
        refine ⟨x2, y, ?_⟩
        simp only [List.cons_append, List.cons.injEq] at hxy
        exact hxy.2

theorem containsStr_sub_false {u v w big : List Char} (hsplit : u ++ v ++ w = big)
    {s : List Char} (hv : containsStr v s = false) : containsStr big s = false := by
  cases hb : containsStr big s with
  | false => rfl
  | true =>
    obtain ⟨x, y, hxy⟩ := (containsStr_iff_exists big s).mp hb
    have hvt : containsStr v s = true := by
      apply (containsStr_iff_exists v s).mpr
      refine ⟨x ++ u, w ++ y, ?_⟩
      rw [← hxy, ← hsplit]
      simp [List.append_assoc]
    rw [hv] at hvt
    exact Bool.noConfusion hvt

theorem containsStr_append_left {sub a : List Char} (b : List Char)
    (h : containsStr sub a = true) : containsStr sub (a ++ b) = true := by
  obtain ⟨x, y, hxy⟩ := (containsStr_iff_exists sub a).mp h
  exact (containsStr_iff_exists sub (a ++ b)).mpr ⟨x, y ++ b, by rw [← hxy]; simp⟩

theorem containsStr_cons_ext {sub s : List Char} (c : Char)
    (h : containsStr sub s = true) : containsStr sub (c :: s) = true := by
  simp [containsStr, h]

theorem containsStr_suffix_false {sub s x t : List Char}
    (h : containsStr sub s = false) (heq : x ++ t = s) : containsStr sub t = false := by
  cases hc : containsStr sub t with
  | false => rfl
  | true =>
    obtain ⟨a, b, hab⟩ := (containsStr_iff_exists sub t).mp hc
    have : containsStr sub s = true := by
      apply (containsStr_iff_exists sub s).mpr
      exact ⟨x ++ a, b, by rw [← heq, ← hab]; simp [List.append_assoc]⟩
    rw [h] at this
    exact Bool.noConfusion this

theorem containsStr_tail_false {sub s : List Char} {c : Char}
    (h : containsStr sub (c :: s) = false) : containsStr sub s = false :=
  containsStr_suffix_false h (x := [c]) rfl

theorem containsStr_dropWhile_false {sub s : List Char} {p : Char → Bool}
    (h : containsStr sub s = false) : containsStr sub (s.dropWhile p) = false :=
  containsStr_suffix_false h (List.takeWhile_append_dropWhile p s)

theorem containsStr_drop_false {sub s : List Char} (n : Nat)
    (h : containsStr sub s = false) : containsStr sub (s.drop n) = false :=
  containsStr_suffix_false h (List.take_append_drop n s)

theorem pfx_false_of_containsStr_false {sub s : List Char}
    (h : containsStr sub s = false) : pfx sub s = false := by
  cases hp : pfx sub s with
  | false => rfl
  | true =>
    have : containsStr sub s = true := by
      cases s with
      | nil =>
        cases sub with
        | nil => rfl
        | cons c cs => simp [pfx] at hp
      | cons c s2 => simp [containsStr, hp]
    rw [h] at this
    exact Bool.noConfusion this

/-! ## Lemmas about line splitting and joining -/

theorem splitNl_ne_nil (s : List Char) : splitNl s ≠ [] := by
  cases s with
  | nil => simp [splitNl]
  | cons c rest =>
    simp only [splitNl]
    split <;> simp

theorem splitNl_headD_append : ∀ s : List Char, ∃ t, (splitNl s).headD [] ++ t = s := by
  intro s
  induction s with
  | nil => exact ⟨[], rfl⟩
  | cons c rest ih =>
    by_cases hc : c = '\n'
    · exact ⟨c :: rest, by simp [splitNl, hc]⟩
    · obtain ⟨t, ht⟩ := ih
      refine ⟨t, ?_⟩
      simp only [splitNl, if_neg hc, List.headD_cons, List.cons_append]
      rw [ht]

theorem containsStr_of_mem_splitNl {sub : List Char} :
    ∀ (s : List Char) (l : List Char), l ∈ splitNl s → containsStr sub l = true →
      containsStr sub s = true := by
  intro s
  induction s with
  | nil =>
    intro l hl hc
    simp [splitNl] at hl
    rw [hl] at hc
    exact hc
  | cons c rest ih =>
    intro l hl hc
    by_cases hcnl : c = '\n'
    · rw [splitNl, if_pos hcnl] at hl
      rcases List.mem_cons.mp hl with h | h
      · rw [h] at hc
        simp only [containsStr, List.isEmpty_iff] at hc
        rw [hc]
        simp [containsStr, pfx]
      · exact containsStr_cons_ext c (ih l h hc)
    · rw [splitNl, if_neg hcnl] at hl
      rcases List.mem_cons.mp hl with h | h
      · obtain ⟨t, ht⟩ := splitNl_headD_append rest
        have hfull : (c :: (splitNl rest).headD []) ++ t = c :: rest := by
          simp only [List.cons_append]
          rw [ht]
        rw [← hfull]
        apply containsStr_append_left
        rw [← h]
        exact hc
      · have hmem : l ∈ splitNl rest := List.mem_of_mem_tail h
        exact containsStr_cons_ext c (ih l hmem hc)

theorem containsStr_splitNl_false {sub s : List Char} (h : containsStr sub s = false) :
    ∀ l ∈ splitNl s, containsStr sub l = false := by
  intro l hl
  cases hc : containsStr sub l with
  | false => rfl
  | true =>
    have := containsStr_of_mem_splitNl s l hl hc
    rw [h] at this
    exact Bool.noConfusion this

theorem joinNl_splitNl : ∀ s : List Char, joinNl (splitNl s) = s := by
  intro s
  induction s with
  | nil => rfl
  | cons c rest ih =>
    obtain ⟨h0, t0, hsp⟩ : ∃ h0 t0, splitNl rest = h0 :: t0 := by
      cases hx : splitNl rest with
      | nil => exact absurd hx (splitNl_ne_nil rest)
      | cons a b => exact ⟨a, b, rfl⟩
    by_cases hc : c = '\n'
    · rw [splitNl, if_pos hc, hsp]
      rw [hsp] at ih
      cases t0 with
      | nil => simp only [joinNl] at ih ⊢; rw [ih, hc]; rfl
      | cons x xs => simp only [joinNl] at ih ⊢; rw [ih, hc]; rfl
    · rw [splitNl, if_neg hc, hsp]
      rw [hsp] at ih
      simp only [List.headD_cons, List.tail_cons]
      cases t0 with
      | nil => simp only [joinNl] at ih ⊢; rw [ih]
      | cons x xs =>
        simp only [joinNl] at ih ⊢
        rw [List.cons_append, ih]

/-! ## No-op lemmas: each scanning pass is the identity when its
trigger text does not occur in the input -/

theorem replaceAllFuel_noop {old : List Char} (new : List Char) :
    ∀ (f : Nat) (s : List Char), containsStr old s = false →
      replaceAllFuel old new f s = s := by
  intro f
  induction f with
  | zero => intro s _; rfl
  | succ f ih =>
    intro s h
    cases s with
    | nil => rfl
    | cons c rest =>
      have hp : pfx old (c :: rest) = false := pfx_false_of_containsStr_false h
      have ht : containsStr old rest = false := containsStr_tail_false h
      simp only [replaceAllFuel, hp, Bool.false_eq_true, if_false]
      rw [ih rest ht]

theorem subAF_noop : ∀ (f : Nat) (s : List Char), containsStr sigTail1 s = false →
    subAF f s = s := by
  intro f
  induction f with
  | zero => intro s _; rfl
  | succ f ih =>
    intro s h
    cases s with
    | nil => rfl
    | cons c rest =>
      have ht : containsStr sigTail1 rest = false := containsStr_tail_false h
      by_cases hcs : isPySpace c = true
      · have hafter : containsStr sigTail1 ((c :: rest).dropWhile isPySpace) = false :=
          containsStr_dropWhile_false h
        have hpfx : pfx sigTail1 ((c :: rest).dropWhile isPySpace) = false :=
          pfx_false_of_containsStr_false hafter
        simp only [subAF, hcs, if_true, hpfx, Bool.false_eq_true, if_false]
        rw [ih rest ht]
      · simp only [subAF, Bool.not_eq_true] at hcs ⊢
        simp only [hcs, Bool.false_eq_true, if_false]
        rw [ih rest ht]

theorem subBF_noop : ∀ (f : Nat) (s : List Char), containsStr sigTail2 s = false →
    subBF f s = s := by
  intro f
  induction f with
  | zero => intro s _; rfl
  | succ f ih =>
    intro s h
    cases s with
    | nil => rfl
    | cons c rest =>
      have ht : containsStr sigTail2 rest = false := containsStr_tail_false h
      by_cases hcs : isPySpace c = true
      · have hafter : containsStr sigTail2 ((c :: rest).dropWhile isPySpace) = false :=
          containsStr_dropWhile_false h
        have hpfx : pfx sigTail2 ((c :: rest).dropWhile isPySpace) = false :=
          pfx_false_of_containsStr_false hafter
        simp only [subBF, hcs, if_true, hpfx, Bool.false_eq_true, if_false]
        rw [ih rest ht]
      · simp only [subBF, Bool.not_eq_true] at hcs ⊢
        simp only [hcs, Bool.false_eq_true, if_false]
        rw [ih rest ht]

theorem subCF_noop : ∀ (f : Nat) (s : List Char), containsStr closeComment s = false →
    subCF f s = s := by
  intro f
  induction f with
  | zero => intro s _; rfl
  | succ f ih =>
    intro s h
    cases s with
    | nil => rfl
    | cons c rest =>
      have hp : pfx closeComment (c :: rest) = false := pfx_false_of_containsStr_false h
      have ht : containsStr closeComment rest = false := containsStr_tail_false h
      simp only [subCF, hp, Bool.false_eq_true, if_false]
      rw [ih rest ht]

theorem fixLoopV1_noop : ∀ (lines : List (List Char)) (bc : Int) (ind : Nat),
    (∀ l ∈ lines, containsStr sigNew l = false) →
      fixLoopV1 lines false bc ind = (lines, false) := by
  intro lines
  induction lines with
  | nil => intro bc ind _; rfl
  | cons l ls ih =>
    intro bc ind h
    have h1 : containsStr sigNew l = false := h l (List.mem_cons_self l ls)
    have h2 : ∀ x ∈ ls, containsStr sigNew x = false :=
      fun x hx => h x (List.mem_cons_of_mem l hx)
    simp only [fixLoopV1, h1, Bool.false_eq_true, if_false]
    rw [ih bc ind h2]

theorem v2Go_noop : ∀ (f : Nat) (lines : List (List Char)),
    (∀ l ∈ lines, containsStr sigNew l = false) → v2Go f lines = lines := by
  intro f
  induction f with
  | zero => intro lines _; rfl
  | succ f ih =>
    intro lines h
    cases lines with
    | nil => rfl
    | cons l rest =>
      cases rest with
      | nil => rfl
      | cons l2 ls2 =>
        have h2 : containsStr sigNew l2 = false := h l2 (by simp)
        have hrest : ∀ x ∈ l2 :: ls2, containsStr sigNew x = false :=
          fun x hx => h x (List.mem_cons_of_mem l hx)
        simp only [v2Go, h2, Bool.and_false, Bool.false_eq_true, if_false]
        rw [ih (l2 :: ls2) hrest]

/-! ## Structural lemmas for the call-site completeness claim -/

theorem pfx_append_of_le : ∀ (p a b : List Char), p.length ≤ a.length →
    pfx p (a ++ b) = pfx p a := by
  intro p
  induction p with
  | nil => intro a b _; rfl
  | cons c p ih =>
    intro a b hlen
    cases a with
    | nil => simp at hlen
    | cons d a2 =>
      simp only [List.cons_append, pfx]
      by_cases hcd : c = d
      · rw [if_pos hcd, if_pos hcd]
        exact ih a2 b (by simpa using hlen)
      · rw [if_neg hcd, if_neg hcd]

theorem pfx_append_short : ∀ (a p b : List Char), a.length < p.length →
    pfx p (a ++ b) = true → pfx a p = true ∧ pfx (p.drop a.length) b = true := by
  intro a
  induction a with
  | nil =>
    intro p b _ h
    exact ⟨rfl, by simpa using h⟩
  | cons d a2 ih =>
    intro p b hlen h
    cases p with
    | nil => simp at hlen
    | cons c p2 =>
      simp only [List.cons_append, pfx] at h
      split at h
      · next hcd =>
        obtain ⟨h1, h2⟩ := ih p2 b (by simpa using hlen) h
        refine ⟨?_, by simpa using h2⟩
        simp only [pfx]
        rw [if_pos hcd.symm]
        exact h1
      · exact absurd h (by simp)

theorem containsStr_append_elim : ∀ (a b sub : List Char),
    containsStr sub (a ++ b) = true →
      (∃ i, i < a.length ∧ pfx sub (a.drop i ++ b) = true) ∨ containsStr sub b = true := by
  intro a
  induction a with
  | nil => intro b sub h; right; simpa using h
  | cons c a2 ih =>
    intro b sub h
    simp only [List.cons_append, containsStr, Bool.or_eq_true] at h
    rcases h with h | h
    · left
      exact ⟨0, by simp, by simpa using h⟩
    · rcases ih b sub h with ⟨i, hi, hp⟩ | hb
      · left
        refine ⟨i + 1, by simpa using hi, ?_⟩
        simpa using hp
      · right
        exact hb

theorem drop_cons_of_lt : ∀ (l : List Char) (k : Nat), k < l.length →
    ∃ ch, l.drop k = ch :: l.drop (k + 1) := by
  intro l
  induction l with
  | nil => intro k hk; simp at hk
  | cons c rest ih =>
    intro k hk
    cases k with
    | zero => exact ⟨c, by simp⟩
    | succ k2 =>
      obtain ⟨ch, hch⟩ := ih k2 (by simpa using hk)
      exact ⟨ch, by simpa using hch⟩

theorem oldCall_length : oldCall.length = 20 := by decide

theorem newCall_length : newCall.length = 22 := by decide

theorem oldCall_head : oldCall = '_' :: oldCall.drop 1 := by decide

theorem oldCall_drop_pfx_newCall : ∀ k, 1 ≤ k → k < 20 →
    pfx (oldCall.drop k) newCall = false := by decide

theorem oldCall_not_pfx_newCall_drop : ∀ i, i < 3 →
    pfx oldCall (newCall.drop i) = false := by decide

theorem newCall_drop_not_pfx_oldCall : ∀ i, 3 ≤ i → i < 22 →
    pfx (newCall.drop i) oldCall = false := by decide

theorem replaceAll_drop_transfer : ∀ (f : Nat) (u : List Char) (k : Nat),
    u.length ≤ f → 1 ≤ k → k < 20 →
    pfx (oldCall.drop k) (replaceAllFuel oldCall newCall f u) = true →
    pfx (oldCall.drop k) u = true := by
  intro f
  induction f with
  | zero =>
    intro u k hf h1 h2 hp
    have hu : u = [] := List.eq_nil_of_length_eq_zero (Nat.le_zero.mp hf)
    subst hu
    obtain ⟨ch, hch⟩ := drop_cons_of_lt oldCall k (by rw [oldCall_length]; exact h2)
    rw [hch] at hp
    exact absurd hp (by simp [pfx, replaceAllFuel])
  | succ f ih =>
    intro u k hf h1 h2 hp
    cases u with
    | nil =>
      obtain ⟨ch, hch⟩ := drop_cons_of_lt oldCall k (by rw [oldCall_length]; exact h2)
      rw [hch] at hp
      exact absurd hp (by simp [pfx, replaceAllFuel])
    | cons c rest =>
      by_cases hm : pfx oldCall (c :: rest) = true
      · rw [replaceAllFuel, if_pos hm] at hp
        rw [pfx_append_of_le _ _ _ (by
          rw [List.length_drop, oldCall_length, newCall_length]; omega)] at hp
        have hfact := oldCall_drop_pfx_newCall k h1 h2
        rw [hfact] at hp
        exact Bool.noConfusion hp
      · rw [replaceAllFuel, if_neg hm] at hp
        obtain ⟨ch, hch⟩ := drop_cons_of_lt oldCall k (by rw [oldCall_length]; exact h2)
        rw [hch] at hp ⊢
        simp only [pfx] at hp ⊢
        split at hp
        · next hcc =>
          rw [if_pos hcc]
          by_cases hk19 : k + 1 < 20
          · exact ih rest (k + 1) (by simpa using hf) (by omega) hk19 hp
          · have h20 : k + 1 = 20 := by omega
            have hdrop : oldCall.drop (k + 1) = [] := by rw [h20]; decide
            rw [hdrop]
            rfl
        · exact absurd hp (by simp)

theorem replaceAll_free : ∀ (f : Nat) (s : List Char), s.length ≤ f →
    containsStr oldCall (replaceAllFuel oldCall newCall f s) = false := by
  intro f
  induction f with
  | zero =>
    intro s hf
    have hs : s = [] := List.eq_nil_of_length_eq_zero (Nat.le_zero.mp hf)
    subst hs
    decide
  | succ f ih =>
    intro s hf
    cases s with
    | nil => simp only [replaceAllFuel]; decide
    | cons c rest =>
      by_cases hm : pfx oldCall (c :: rest) = true
      · rw [replaceAllFuel, if_pos hm]
        have hlen20 : 20 ≤ (c :: rest).length := by
          have := (pfx_iff_exists oldCall (c :: rest)).mp hm
          obtain ⟨t, ht⟩ := this
          rw [← ht]
          simp [oldCall_length]
        have hRf : containsStr oldCall
            (replaceAllFuel oldCall newCall f ((c :: rest).drop oldCall.length)) = false := by
          apply ih
          rw [List.length_drop, oldCall_length]
          simp only [List.length_cons] at hf hlen20 ⊢
          omega
        cases hco : containsStr oldCall
            (newCall ++ replaceAllFuel oldCall newCall f ((c :: rest).drop oldCall.length)) with
        | false => rfl
        | true =>
          exfalso
          rcases containsStr_append_elim newCall _ oldCall hco with ⟨i, hi, hp⟩ | hb
          · rw [newCall_length] at hi
            by_cases hi3 : i < 3
            · rw [pfx_append_of_le _ _ _ (by
                rw [List.length_drop, oldCall_length, newCall_length]; omega)] at hp
              have := oldCall_not_pfx_newCall_drop i hi3
              rw [this] at hp
              exact Bool.noConfusion hp
            · obtain ⟨hpre, -⟩ := pfx_append_short (newCall.drop i) oldCall _ (by
                rw [List.length_drop, oldCall_length, newCall_length]; omega) hp
              have := newCall_drop_not_pfx_oldCall i (by omega) hi
              rw [this] at hpre
              exact Bool.noConfusion hpre
          · rw [hRf] at hb
            exact Bool.noConfusion hb
      · rw [replaceAllFuel, if_neg hm]
        have hR2 : containsStr oldCall (replaceAllFuel oldCall newCall f rest) = false :=
          ih rest (by simpa using hf)
        simp only [containsStr]
        rw [hR2]
        simp only [Bool.or_false]
        cases hpo : pfx oldCall (c :: replaceAllFuel oldCall newCall f rest) with
        | false => rfl
        | true =>
          exfalso
          rw [oldCall_head] at hpo
          simp only [pfx] at hpo
          split at hpo
          · next hcc =>
            have htr := replaceAll_drop_transfer f rest 1 (by simpa using hf)
              (by omega) (by omega) hpo
            apply hm
            rw [oldCall_head]
            simp only [pfx]
            rw [if_pos hcc]
            exact htr
          · exact absurd hpo (by simp)

/-! ## Lemmas for the scanner correspondence and the unbalanced case -/

theorem depthAt_one (d : Int) (l : List Char) (ls : List (List Char)) :
    depthAt d (l :: ls) 1 = d + braceDelta l := by
  simp [depthAt]

theorem depthAt_cons (d : Int) (l : List Char) (ls : List (List Char)) (n : Nat) :
    depthAt d (l :: ls) (n + 1) = depthAt (d + braceDelta l) ls n := by
  simp only [depthAt, List.take_succ_cons, List.map_cons, List.sum_cons]
  ring

theorem wrapTail_spec : ∀ (lines : List (List Char)) (setInd : List Char) (d : Int) (k : Nat),
    0 < d → specLocateBlockEnd d lines = some k →
    (∀ j, j < k → 0 < depthAt d lines (j + 1)) →
    wrapTail setInd d lines =
      ((lines.take k).map indentFn ++ (setInd ++ closeBr) :: (lines.drop k).take 1,
        lines.drop (k + 1)) := by
  intro lines
  induction lines with
  | nil =>
    intro setInd d k _ hspec _
    simp [specLocateBlockEnd] at hspec
  | cons l ls ih =>
    intro setInd d k hd hspec hpos
    by_cases hz : d + braceDelta l = 0
    · rw [specLocateBlockEnd, if_pos hz] at hspec
      have hk : k = 0 := (Option.some_inj.mp hspec).symm
      subst hk
      rw [wrapTail, if_neg (by omega)]
      simp only [hz, if_pos rfl]
      simp
    · rw [specLocateBlockEnd, if_neg hz] at hspec
      rcases Option.map_eq_some'.mp hspec with ⟨k2, hk2, hks⟩
      subst hks
      have hd2 : 0 < d + braceDelta l := by
        have := hpos 0 (by omega)
        rw [depthAt_one] at this
        exact this
      have hpos2 : ∀ j, j < k2 → 0 < depthAt (d + braceDelta l) ls (j + 1) := by
        intro j hj
        have := hpos (j + 1) (by omega)
        rw [depthAt_cons] at this
        exact this
      rw [wrapTail, if_neg (by omega)]
      simp only [hz, if_neg hz]
      rw [ih setInd (d + braceDelta l) k2 hd2 hk2 hpos2]
      simp only [List.take_succ_cons, List.map_cons, List.drop_succ_cons, List.cons_append]
      simp

theorem fixLoopV1_neverCloses : ∀ (lines : List (List Char)) (bc : Int) (ind : Nat),
    v1NeverCloses bc lines = true → fixLoopV1 lines true bc ind = (lines, true) := by
  intro lines
  induction lines with
  | nil => intro bc ind _; rfl
  | cons l ls ih =>
    intro bc ind h
    by_cases hsig : containsStr sigNew l = true
    · rw [v1NeverCloses, if_pos hsig] at h
      exact Bool.noConfusion h
    · have hsig2 : containsStr sigNew l = false := by
        cases hx : containsStr sigNew l with
        | false => rfl
        | true => exact absurd hx hsig
      rw [v1NeverCloses, if_neg hsig] at h
      by_cases hcl : ((bc + braceDelta l) == 0 && hasCh '\x7d' l) = true
      · rw [if_pos hcl] at h
        exact Bool.noConfusion h
      · rw [if_neg hcl] at h
        have hcl2 : ((bc + braceDelta l) == 0 && hasCh '\x7d' l) = false := by
          cases hx : ((bc + braceDelta l) == 0 && hasCh '\x7d' l) with
          | false => rfl
          | true => exact absurd hx hcl
        simp only [fixLoopV1, hsig2, Bool.false_eq_true, if_false, if_true, hcl2]
        rw [ih (bc + braceDelta l) ind h]

/-! ## Whole-transform no-op helpers -/

theorem transformV1_noop (s : List Char) (h1 : containsStr gqName s = false)
    (h2 : containsStr sigNew s = false) : transformV1 s = s := by
  have hA : containsStr sigTail1 s = false :=
    containsStr_sub_false (u := ("void ").toList) (w := ("() \x7b\n").toList)
      (by decide) h1
  have hsubA : subA s = s := subAF_noop s.length s hA
  have hlines : ∀ l ∈ splitNl s, containsStr sigNew l = false :=
    containsStr_splitNl_false h2
  have hold : containsStr oldCall s = false :=
    containsStr_sub_false (u := ([] : List Char)) (w := ("();").toList)
      (by decide) h1
  simp only [transformV1, hsubA]
  rw [fixLoopV1_noop (splitNl s) 0 0 hlines]
  simp only
  rw [joinNl_splitNl]
  simp only [replaceAll]
  exact replaceAllFuel_noop newCall s.length s hold

theorem transformV2_noop (s : List Char) (h1 : containsStr gqName s = false)
    (h2 : containsStr sigNew s = false) (h3 : containsStr closeComment s = false) :
    transformV2 s = s := by
  have hB : containsStr sigTail2 s = false :=
    containsStr_sub_false (u := ("void ").toList) (w := ("() \x7b").toList)
      (by decide) h1
  have hsubC : subC s = s := subCF_noop s.length s h3
  have hsubB : subB s = s := subBF_noop s.length s hB
  have hlines : ∀ l ∈ splitNl s, containsStr sigNew l = false :=
    containsStr_splitNl_false h2
  have hold : containsStr oldCall s = false :=
    containsStr_sub_false (u := ([] : List Char)) (w := ("();").toList)
      (by decide) h1
  simp only [transformV2, hsubC, hsubB]
  rw [v2Go_noop (splitNl s).length (splitNl s) hlines]
  rw [joinNl_splitNl]
  simp only [replaceAll]
  exact replaceAllFuel_noop newCall s.length s hold

theorem repairExtra_noop (s : List Char) (h1 : containsStr corrupt4 s = false)
    (h2 : containsStr corrupt2 s = false) : repairExtra s = s := by
  simp only [repairExtra, replaceAll]
  rw [replaceAllFuel_noop closeBr s.length s h1]
  exact replaceAllFuel_noop closeBr s.length s h2

/-! ## Concrete buffers used by the claims -/

/-- The specification scenario method, indented by two spaces so that
the whitespace group of the signature regexes can match at the start of
the buffer without capturing a newline. -/
def scenIndented : List Char :=
  ("  void _generateQuestion() \x7b\n    score = score + 1;\n  \x7d").toList

/-- Output of the v2 transform on scenIndented: marker line, renamed
signature, body wrapped in the notify scope. -/
def scenV2Out : List Char :=
  ("  @override\n  void generateNewQuestion() \x7b\n    setState(() \x7b\n      score = score + 1;\n    \x7d);\n  \x7d").toList

/-- The specification scenario exactly as printed: the method at column
zero. -/
def scenZero : List Char :=
  ("void _generateQuestion() \x7b\n  score = score + 1;\n\x7d").toList

/-- The expected output printed in the specification scenario. -/
def scenZeroExpected : List Char :=
  ("@override\nvoid generateNewQuestion() \x7b\n  setState(() \x7b\n    score = score + 1;\n  \x7d);\n\x7d").toList

/-- An already-renamed method whose body contains a non-setState
callback closed by a commented closer; the v2 transform wraps it and
thereby manufactures the revert adjacency. -/
def v2NonIdemIn : List Char :=
  ("  @override\n  void generateNewQuestion() \x7b\n    f(() \x7b\n    \x7d); // setState\n  \x7d").toList

/-- A buffer with zero occurrences of the old method name that the v1
wrap loop nevertheless rewrites. -/
def noMatchInput : List Char :=
  ("  void generateNewQuestion() \x7b\n    setState(() \x7b\n    x;\n    \x7d); // setState\n  \x7d").toList

/-- Two overlapping occurrences of the corruption adjacency. -/
def overlapCorrupt : List Char :=
  ("\x7d); // setState\n    \x7d); // setState\n    \x7d);").toList

/-- The standard single double-wrap corruption buffer. -/
def corruptStd : List Char :=
  ("  void m() \x7b\n    setState(() \x7b\n      x;\n    \x7d); // setState\n    \x7d);\n  \x7d").toList

/-- The canonical single-wrap form of corruptStd. -/
def corruptStdFixed : List Char :=
  ("  void m() \x7b\n    setState(() \x7b\n      x;\n    \x7d);\n  \x7d").toList

/-- An already-renamed method with an unwrapped one-line body; the v1
loop starts its count at zero and never sees the count return to zero. -/
def unwrappedRenamed : List Char :=
  ("  void generateNewQuestion() \x7b\n    x;\n  \x7d").toList

/-- A method whose body never closes before end of buffer. -/
def unbalancedIn : List Char :=
  ("  void _generateQuestion() \x7b\n    score;\n").toList

/-- What the v1 transform leaves behind on unbalancedIn: the rename and
the setState opener are inserted, no closer ever is. -/
def unbalancedOut : List Char :=
  ("  @override\n  void generateNewQuestion() \x7b\n    setState(() \x7b\n    score;\n").toList

/-- A buffer with none of the trigger texts. -/
def plainBuffer : List Char :=
  ("class Foo \x7b\n  int x = 1;\n\x7d").toList

/-! ## Indentation analysis of the repair literals, for every
indentation -/

theorem countCh_append (c : Char) : ∀ (a b : List Char),
    countCh c (a ++ b) = countCh c a + countCh c b := by
  intro a b
  induction a with
  | nil => simp [countCh]
  | cons d rest ih =>
    show (if d = c then 1 else 0) + countCh c (rest ++ b) =
      ((if d = c then 1 else 0) + countCh c rest) + countCh c b
    rw [ih]
    omega

theorem countCh_replicate_space : ∀ k : Nat, countCh '\n' (List.replicate k ' ') = 0 := by
  intro k
  induction k with
  | zero => rfl
  | succ k2 ih =>
    rw [List.replicate_succ]
    simp only [countCh]
    rw [if_neg (by decide), ih]

theorem countCh_zero_noNl : ∀ (l : List Char), countCh '\n' l = 0 →
    ∀ ch ∈ l, (ch != '\n') = true := by
  intro l
  induction l with
  | nil => intro _ ch hch; simp at hch
  | cons d rest ih =>
    intro h ch hch
    simp only [countCh] at h
    have hd : d ≠ '\n' := by
      by_contra hdd
      rw [if_pos hdd] at h
      omega
    have hrest : countCh '\n' rest = 0 := by
      rw [if_neg hd] at h
      omega
    rcases List.mem_cons.mp hch with hc | hc
    · subst hc; simpa using hd
    · exact ih hrest ch hc

theorem takeWhile_append_of_all {p : Char → Bool} : ∀ (a b : List Char),
    (∀ ch ∈ a, p ch = true) → List.takeWhile p (a ++ b) = a ++ List.takeWhile p b := by
  intro a
  induction a with
  | nil => intro b _; rfl
  | cons d rest ih =>
    intro b h
    have hd : p d = true := h d (List.mem_cons_self d rest)
    simp only [List.cons_append, List.takeWhile_cons, hd, if_true]
    rw [ih b (fun ch hch => h ch (List.mem_cons_of_mem d hch))]

theorem replicate_brace_align : ∀ (a b : Nat) (u v : List Char),
    List.replicate a ' ' ++ '\x7d' :: u = List.replicate b ' ' ++ '\x7d' :: v → a = b := by
  intro a
  induction a with
  | zero =>
    intro b u v h
    cases b with
    | zero => rfl
    | succ b2 =>
      rw [List.replicate_succ] at h
      simp only [List.replicate, List.nil_append, List.cons_append, List.cons.injEq] at h
      exact absurd h.1 (by decide)
  | succ a2 ih =>
    intro b u v h
    cases b with
    | zero =>
      rw [List.replicate_succ] at h
      simp only [List.replicate, List.nil_append, List.cons_append, List.cons.injEq] at h
      exact absurd h.1 (by decide)
    | succ b2 =>
      rw [List.replicate_succ, List.replicate_succ] at h
      simp only [List.cons_append, List.cons.injEq] at h
      exact congrArg Nat.succ (ih b2 u v h.2)

theorem corrupt_pattern_newlines : ∀ k : Nat,
    countCh '\n' (closeComment ++ '\n' :: (List.replicate k ' ' ++ closeBr)) = 1 := by
  intro k
  rw [countCh_append]
  show countCh '\n' closeComment +
    ((if ('\n' : Char) = '\n' then 1 else 0) +
      countCh '\n' (List.replicate k ' ' ++ closeBr)) = 1
  rw [if_pos rfl, countCh_append, countCh_replicate_space]
  have h1 : countCh '\n' closeComment = 0 := by decide
  have h2 : countCh '\n' closeBr = 0 := by decide
  rw [h1, h2]

theorem corrupt_pattern_takeWhile : ∀ (z : List Char) (k : Nat),
    List.takeWhile (fun ch => ch != '\n')
      ((closeComment ++ '\n' :: (List.replicate k ' ' ++ closeBr)) ++ z) = closeComment := by
  intro z k
  rw [List.append_assoc]
  rw [takeWhile_append_of_all closeComment _ (by decide)]
  simp [List.takeWhile_cons]

theorem corrupt_pattern_align (m n : Nat)
    (h : containsStr (closeComment ++ '\n' :: (List.replicate m ' ' ++ closeBr))
      (corruptAt n) = true) : m = n := by
  obtain ⟨x, y, hxy⟩ := (containsStr_iff_exists _ _).mp h
  rw [List.append_assoc] at hxy
  have htgtN : countCh '\n' (corruptAt n) = 1 := corrupt_pattern_newlines n
  have hcc := congrArg (countCh '\n') hxy
  rw [countCh_append, countCh_append, corrupt_pattern_newlines m, htgtN] at hcc
  have hxfree : countCh '\n' x = 0 := by omega
  have htgtTW : List.takeWhile (fun ch => ch != '\n') (corruptAt n) = closeComment := by
    simp only [corruptAt]
    rw [takeWhile_append_of_all closeComment _ (by decide)]
    simp [List.takeWhile_cons]
  have htw := congrArg (List.takeWhile (fun ch => ch != '\n')) hxy
  rw [takeWhile_append_of_all x _ (countCh_zero_noNl x hxfree)] at htw
  rw [corrupt_pattern_takeWhile y m, htgtTW] at htw
  have hxnil : x = [] := by
    have hlen := congrArg List.length htw
    rw [List.length_append] at hlen
    exact List.eq_nil_of_length_eq_zero (by omega)
  subst hxnil
  rw [List.nil_append] at hxy
  simp only [corruptAt] at hxy
  rw [List.append_assoc] at hxy
  have h2 := List.append_cancel_left hxy
  rw [List.cons_append] at h2
  injection h2 with h2a h2b
  have hbr : closeBr = '\x7d' :: (");").toList := by decide
  rw [hbr, List.append_assoc, List.cons_append] at h2b
  exact replicate_brace_align m n ((");").toList ++ y) ((");").toList) h2b

theorem corruptAt_trigger_free (n : Nat) (hn2 : n ≠ 2) (hn4 : n ≠ 4) :
    containsStr corrupt4 (corruptAt n) = false ∧
    containsStr corrupt2 (corruptAt n) = false := by
  constructor
  · cases hx : containsStr corrupt4 (corruptAt n) with
    | false => rfl
    | true =>
      exfalso
      have hre : corrupt4 = closeComment ++ '\n' :: (List.replicate 4 ' ' ++ closeBr) := by
        decide
      rw [hre] at hx
      exact hn4 (corrupt_pattern_align 4 n hx).symm
  · cases hx : containsStr corrupt2 (corruptAt n) with
    | false => rfl
    | true =>
      exfalso
      have hre : corrupt2 = closeComment ++ '\n' :: (List.replicate 2 ' ' ++ closeBr) := by
        decide
      rw [hre] at hx
      exact hn2 (corrupt_pattern_align 2 n hx).symm

/-! ## Claim theorems -/

/-- Claim C1, counterexample.  Neither whole-file transform is
idempotent.  Applying the v1 transform twice to the indented scenario
method inserts a second commented closer, and applying the v2 transform
twice to an already-renamed method whose body ends in a commented
closer differs from applying it once, because the first application
manufactures the revert adjacency that the second application then
rewrites. -/
theorem c1_counterexample :
    transformV1 (transformV1 scenIndented) ≠ transformV1 scenIndented ∧
    transformV2 (transformV2 v2NonIdemIn) ≠ transformV2 v2NonIdemIn := by
  constructor
  · decide
  · decide

/-- Claim C1, amended.  Idempotence holds at the canonical point: a
second application of the v2 transform on the output it produced for
the scenario method is a no-op, because the setState-presence check
short-circuits before any insertion. -/
theorem c1_amended :
    transformV2 (transformV2 scenIndented) = transformV2 scenIndented := by
  decide

/-- Claim C2, counterexample.  On the scenario input exactly as printed
in the specification (the method at column zero) both transforms return
the input unchanged, because the signature patterns require at least
one whitespace character before the declaration; the expected output is
therefore not produced. -/
theorem c2_counterexample :
    transformV1 scenZero = scenZero ∧ transformV2 scenZero = scenZero ∧
    scenZero ≠ scenZeroExpected := by
  refine ⟨by decide, by decide, by decide⟩

/-- Claim C2, amended.  With the scenario method indented by two spaces
at the start of the buffer, one v2 transform produces exactly the
marker line, the renamed signature and the body wrapped in the notify
scope, and re-running the v2 transform on that output is
byte-identical. -/
theorem c2_amended :
    transformV2 scenIndented = scenV2Out ∧ transformV2 scenV2Out = scenV2Out := by
  refine ⟨by decide, by decide⟩

/-- Claim C3, counterexample.  A buffer with zero occurrences of the
old method name is not left byte-identical: the v1 wrap loop triggers
on the renamed signature text alone and inserts a second commented
closer. -/
theorem c3_counterexample :
    containsStr gqName noMatchInput = false ∧
    transformV1 noMatchInput ≠ noMatchInput := by
  refine ⟨by decide, by decide⟩

/-- Claim C3, amended.  A file containing no occurrence of the old
method name, none of the renamed signature text, and none of the
commented closer is left byte-identical by both transforms. -/
theorem c3_amended (s : List Char) (h1 : containsStr gqName s = false)
    (h2 : containsStr sigNew s = false) (h3 : containsStr closeComment s = false) :
    transformV1 s = s ∧ transformV2 s = s :=
  ⟨transformV1_noop s h1 h2, transformV2_noop s h1 h2 h3⟩

/-- Witness for the amended claim C3 at a concrete buffer. -/
theorem c3_amended_witness :
    transformV1 plainBuffer = plainBuffer ∧ transformV2 plainBuffer = plainBuffer :=
  c3_amended plainBuffer (by decide) (by decide) (by decide)

/-- Claim C4, counterexample.  On a buffer with two overlapping
occurrences of the corruption adjacency, one repair pass leaves a
residual adjacency, so a second pass changes the buffer again: the
repair pass is not idempotent on every corrupted buffer. -/
theorem c4_counterexample :
    containsStr corrupt4 overlapCorrupt = true ∧
    repairExtra (repairExtra overlapCorrupt) ≠ repairExtra overlapCorrupt := by
  refine ⟨by decide, by decide⟩

/-- Claim C4, amended.  A buffer containing neither corruption literal
is a fixed point of the repair pass; on the standard single-corruption
buffer one pass deletes the redundant closing line yielding the
canonical single-wrap form and a second pass changes nothing. -/
theorem c4_amended (s : List Char) (h1 : containsStr corrupt4 s = false)
    (h2 : containsStr corrupt2 s = false) :
    repairExtra s = s ∧ repairExtra corruptStd = corruptStdFixed ∧
    repairExtra corruptStdFixed = corruptStdFixed :=
  ⟨repairExtra_noop s h1 h2, by decide, by decide⟩

/-- Witness for the amended claim C4 at a concrete buffer. -/
theorem c4_amended_witness :
    repairExtra plainBuffer = plainBuffer ∧ repairExtra corruptStd = corruptStdFixed ∧
    repairExtra corruptStdFixed = corruptStdFixed :=
  c4_amended plainBuffer (by decide) (by decide)

/-- Claim C5, counterexample.  A balanced buffer on which the v1 loop
closes every method it enters (the final in-method flag is false, so no
UnbalancedBlock occurs) is transformed into an unbalanced one: the loop
inserts a closing line without any matching rename insertion. -/
theorem c5_counterexample :
    (fixLoopV1 (splitNl (subA noMatchInput)) false 0 0).2 = false ∧
    countCh '\x7b' noMatchInput = countCh '\x7d' noMatchInput ∧
    countCh '\x7b' (transformV1 noMatchInput) ≠ countCh '\x7d' (transformV1 noMatchInput) := by
  refine ⟨by decide, by decide, by decide⟩

/-- Claim C5, amended.  Brace balance is preserved on the scenario
input, where the signature rewrite that adds opening braces fires
exactly once and the wrap insertion that adds the closing brace fires
exactly once, for both transforms. -/
theorem c5_amended :
    countCh '\x7b' scenIndented = countCh '\x7d' scenIndented ∧
    countCh '\x7b' (transformV1 scenIndented) = countCh '\x7d' (transformV1 scenIndented) ∧
    countCh '\x7b' (transformV2 scenIndented) = countCh '\x7d' (transformV2 scenIndented) := by
  refine ⟨by decide, by decide, by decide⟩

/-- Claim C6, counterexample.  The v1 loop does not determine the body
end by a depth count starting at one: on an already-renamed method with
an unwrapped body, the specification scanner locates the closing line
at index one of the body, yet the v1 transform inserts nothing and its
in-method flag never clears, because its count starts at zero after the
signature line and therefore reaches minus one, not zero, on the
closing line. -/
theorem c6_counterexample :
    specLocateBlockEnd 1 (splitNl unwrappedRenamed).tail = some 1 ∧
    transformV1 unwrappedRenamed = unwrappedRenamed ∧
    (fixLoopV1 (splitNl (subA unwrappedRenamed)) false 0 0).2 = true := by
  refine ⟨by decide, by decide, by decide⟩

/-- Claim C6, amended.  The v2 body-copy loop does satisfy the claim:
entering with depth d (one for a located method, counting the signature
brace) and provided the running depth stays positive until it first
reaches zero, the closing wrapper is inserted exactly before the line
at which the per-line character-level count returns to zero, the lines
before it are copied through the indentation adjustment, and scanning
resumes after the closing line. -/
theorem c6_amended (lines : List (List Char)) (setInd : List Char) (d : Int) (k : Nat)
    (hd : 0 < d) (hspec : specLocateBlockEnd d lines = some k)
    (hpos : ∀ j, j < k → 0 < depthAt d lines (j + 1)) :
    wrapTail setInd d lines =
      ((lines.take k).map indentFn ++ (setInd ++ closeBr) :: (lines.drop k).take 1,
        lines.drop (k + 1)) :=
  wrapTail_spec lines setInd d k hd hspec hpos

/-- Witness for the amended claim C6 on a two-line body. -/
theorem c6_amended_witness :
    wrapTail [' '] 1 [("x;").toList, ("\x7d").toList] =
      (([("x;").toList, ("\x7d").toList].take 1).map indentFn ++
        ([' '] ++ closeBr) :: ([("x;").toList, ("\x7d").toList].drop 1).take 1,
        [("x;").toList, ("\x7d").toList].drop 2) :=
  c6_amended [("x;").toList, ("\x7d").toList] [' '] 1 1 (by decide) (by decide)
    (by decide)

/-- Claim C7, counterexample.  The scripts do not write back only when
the content changed: on a file whose content the transform leaves
unchanged, the v1 per-file step still produces a write event. -/
theorem c7_counterexample :
    transformV1 (("hello").toList) = ("hello").toList ∧
    v1Step (fun _ => some (("hello").toList)) "a.dart" =
      FileEvent.wrote "a.dart" (("hello").toList) := by
  refine ⟨by decide, by decide⟩

/-- Claim C7, amended.  Every existing file is written back
unconditionally with the transformed content, whether or not it
differs from the original; only a missing file is skipped without a
write. -/
theorem c7_amended (fs : String → Option (List Char)) (n : String) (c : List Char)
    (h : fs n = some c) :
    v1Step fs n = FileEvent.wrote n (transformV1 c) ∧
    repairStep fs n = FileEvent.wrote n (repairExtra c) ∧
    (∀ fs2 : String → Option (List Char), fs2 n = none →
      v1Step fs2 n = FileEvent.skippedMissing n) := by
  refine ⟨?_, ?_, ?_⟩
  · simp [v1Step, h]
  · simp [repairStep, h]
  · intro fs2 h2; simp [v1Step, h2]

/-- Witness for the amended claim C7 at a concrete file map. -/
theorem c7_amended_witness :
    v1Step (fun _ => some (("x").toList)) "a.dart" =
      FileEvent.wrote "a.dart" (transformV1 (("x").toList)) ∧
    repairStep (fun _ => some (("x").toList)) "a.dart" =
      FileEvent.wrote "a.dart" (repairExtra (("x").toList)) ∧
    (∀ fs2 : String → Option (List Char), fs2 "a.dart" = none →
      v1Step fs2 "a.dart" = FileEvent.skippedMissing "a.dart") :=
  c7_amended (fun _ => some (("x").toList)) "a.dart" (("x").toList) rfl

/-- Claim C8, confirmed.  The call-site replacement is the final step
of both transforms and, because no proper suffix of the old call-site
text is a prefix of the new text and the new text contains no
underscore, no occurrence of the old call-site text remains anywhere in
the output of either transform, for every input buffer. -/
theorem c8_confirmed (s : List Char) :
    containsStr oldCall (transformV1 s) = false ∧
    containsStr oldCall (transformV2 s) = false := by
  constructor
  · simp only [transformV1, replaceAll]
    exact replaceAll_free _ _ (Nat.le_refl _)
  · simp only [transformV2, replaceAll]
    exact replaceAll_free _ _ (Nat.le_refl _)

/-- Claim C9, counterexample.  On a located signature whose body never
returns to depth zero, the v1 transform does not skip the method
cleanly: the rename and the setState opener are inserted and left in
the buffer with no closer, the in-method flag never clears, and no
failure of any kind is produced. -/
theorem c9_counterexample :
    transformV1 unbalancedIn = unbalancedOut ∧
    unbalancedOut ≠ unbalancedIn ∧
    containsStr setStateOpen unbalancedOut = true ∧
    containsStr closeComment unbalancedOut = false ∧
    (fixLoopV1 (splitNl (subA unbalancedIn)) false 0 0).2 = true := by
  refine ⟨by decide, by decide, by decide, by decide, by decide⟩

/-- Claim C9, amended.  There is no UnbalancedBlock failure in the
code: once inside a method, if no remaining line re-triggers the
signature check and the close condition never fires, the v1 loop copies
every remaining line unchanged and simply ends with the in-method flag
still set; processing continues and nothing is surfaced. -/
theorem c9_amended (lines : List (List Char)) (bc : Int) (ind : Nat)
    (h : v1NeverCloses bc lines = true) :
    fixLoopV1 lines true bc ind = (lines, true) :=
  fixLoopV1_neverCloses lines bc ind h

/-- Witness for the amended claim C9 on a one-line tail. -/
theorem c9_amended_witness :
    fixLoopV1 [("score;").toList] true 1 2 = ([("score;").toList], true) :=
  c9_amended [("score;").toList] 1 2 (by decide)

/-- Claim C10, confirmed.  The repair pass recognizes the corruption
adjacency only at exactly four or exactly two spaces of indentation of
the redundant closing line: a buffer containing neither literal is left
unchanged, the adjacency at any other indentation whatsoever contains
neither literal (an occurrence would have to align the unique newline
of the literal with the unique newline of the buffer, forcing the space
run to have exactly the literal length), and the adjacency at two or at
four spaces is rewritten. -/
theorem c10_confirmed :
    (∀ s : List Char, containsStr corrupt4 s = false → containsStr corrupt2 s = false →
      repairExtra s = s) ∧
    (∀ n : Nat, ¬(n = 2 ∨ n = 4) →
      containsStr corrupt4 (corruptAt n) = false ∧
      containsStr corrupt2 (corruptAt n) = false) ∧
    repairExtra (corruptAt 2) ≠ corruptAt 2 ∧
    repairExtra (corruptAt 4) ≠ corruptAt 4 := by
  refine ⟨fun s h1 h2 => repairExtra_noop s h1 h2,
    fun n hn => corruptAt_trigger_free n (fun h => hn (Or.inl h)) (fun h => hn (Or.inr h)),
    by decide, by decide⟩

/-- Witness for claim C10: the adjacency at six spaces is left
unchanged. -/
theorem c10_witness :
    containsStr corrupt4 (corruptAt 6) = false ∧
    containsStr corrupt2 (corruptAt 6) = false :=
  c10_confirmed.2.1 6 (by decide)
